import Mathlib

/-!
Verification of the game-accuracy and move-classification engine of the
`tactically` repository (src/lib/game-evaluator.ts).

The engine consumes a list of engine evaluations (one per position: the
starting position plus one position after each ply), classifies every ply by
the win-probability loss from the moving side's perspective, aggregates
per-side accuracy scores, and formats a textual summary.

JavaScript numbers are embedded as `ℚ` for the win-probability /
classification pipeline (every operation there is field arithmetic and
comparison) and as `ℝ` for the accuracy pipeline, whose decay curve uses
`Math.exp`.
-/

namespace Tactically

/-- The `type` field of `MoveClassification` (game-evaluator.ts, line 10). -/
inductive MoveClassType where
  | blunder
  | mistake
  | inaccuracy
  | good
  | excellent
  | brilliant
  | book
  deriving DecidableEq, Repr, BEq

/-- `MoveClassification` (game-evaluator.ts, lines 9–12). -/
structure MoveClassification where
  type : MoveClassType
  winProbLoss : ℚ
  deriving DecidableEq, Repr

/-- `classifyMove` (game-evaluator.ts, lines 38–47): classify a move by the
Win% loss from the moving player's perspective. -/
def classifyMove (winBefore winAfter : ℚ) : MoveClassification :=
  let winProbLoss := winBefore - winAfter
  if 20 ≤ winProbLoss then ⟨.blunder, winProbLoss⟩
  else if 10 ≤ winProbLoss then ⟨.mistake, winProbLoss⟩
  else if 5 ≤ winProbLoss then ⟨.inaccuracy, winProbLoss⟩
  else if winProbLoss ≤ -5 then ⟨.brilliant, winProbLoss⟩
  else if winProbLoss ≤ -1 then ⟨.excellent, winProbLoss⟩
  else ⟨.good, winProbLoss⟩

/-- The perspective conversion of game-evaluator.ts, lines 116–117: a stored
win chance (always from White's perspective) converted to the moving player's
perspective. -/
def toMoverPerspective (wasWhiteTurn : Bool) (winChance : ℚ) : ℚ :=
  if wasWhiteTurn then winChance else 100 - winChance

/-- JavaScript `Math.round`: rounds to the nearest integer, halves toward
positive infinity, i.e. `⌊x + 1/2⌋`. Used for the `score` field
(game-evaluator.ts, line 126). -/
def qRound (x : ℚ) : ℤ := ⌊x + 1 / 2⌋

/-- One element of the `allResults` array as consumed by the move loop of
`evaluateGame`: `none` models a missing entry or one carrying an `error`
field (`!evalData || evalData.error`); `some (winChance, evalScore)` models a
successful evaluation (fields `winChance` and `eval`). -/
abbrev EvalResult := Option (ℚ × ℚ)

/-- The fields of `EvaluatedMove` (game-evaluator.ts, lines 14–27) that the
evaluation logic reads or writes; presentation-only fields (`fen`,
`moveNumber`, `move`, `san`, `bestMove`, `bestMoveSan`, `depth`, `mate`) are
omitted. `index` records the loop index `i` (the 0-based ply index) and
`color` is `true` for `"w"`. -/
structure EvaluatedMove where
  index : ℕ
  color : Bool
  winChance : ℚ
  score : ℤ
  classification : MoveClassification
  deriving DecidableEq, Repr

/-- The body of one successful iteration of the move loop
(game-evaluator.ts, lines 104–134): perspective conversion, classification
and construction of the `EvaluatedMove` record for ply `i`. -/
def mkEvaluatedMove (i : ℕ) (prevWinChance winChance evalScore : ℚ) :
    EvaluatedMove :=
  let wasWhiteTurn := i % 2 == 0
  let playerWinBefore := toMoverPerspective wasWhiteTurn prevWinChance
  let playerWinAfter := toMoverPerspective wasWhiteTurn winChance
  { index := i
    color := wasWhiteTurn
    winChance := winChance
    score := qRound (evalScore * 100)
    classification := classifyMove playerWinBefore playerWinAfter }

/-- The move loop of `evaluateGame` (game-evaluator.ts, lines 100–137):
`results` is the tail of `allResults` (entry `j` is the evaluation of the
position after ply `i + j`), `prevWinChance` the win chance of the last
successfully evaluated position. A failed entry is skipped (`continue`)
without touching `prevWinChance`; a successful entry produces an
`EvaluatedMove` and becomes the new `prevWinChance`. -/
def classifyLoop (prevWinChance : ℚ) (results : List EvalResult) (i : ℕ) :
    List EvaluatedMove :=
  match results with
  | [] => []
  | none :: rest => classifyLoop prevWinChance rest (i + 1)
  | some (w, e) :: rest =>
      mkEvaluatedMove i prevWinChance w e :: classifyLoop w rest (i + 1)

/-- The win chance of the last successfully evaluated position in `results`,
or `prev` when every entry failed: the value the loop of `evaluateGame` holds
in `prevWinChance` after consuming `results`. -/
def lastSuccess (prev : ℚ) : List EvalResult → ℚ
  | [] => prev
  | none :: rest => lastSuccess prev rest
  | some (w, _) :: rest => lastSuccess w rest

/-- The move-production phase of `evaluateGame` (game-evaluator.ts, lines
94–137): the first entry of `allResults` is the starting position; its
failure (missing entry or `error` field) throws
`Failed to evaluate starting position`; otherwise the move loop runs over
the remaining entries, one per ply of the game. -/
def evaluateMoves (historyLen : ℕ) (allResults : List EvalResult) :
    Except String (List EvaluatedMove) :=
  match allResults with
  | [] => .error "Failed to evaluate starting position: no data"
  | none :: _ => .error "Failed to evaluate starting position"
  | some (startWin, _) :: rest =>
      .ok (classifyLoop startWin (rest.take historyLen) 0)

/-- The outcome of one `supabase.functions.invoke("chess-eval", ...)` call
for one batch (game-evaluator.ts, lines 80–87): a transport-level failure
(the `error` return), an application-level error payload (`data.error`), or
a list of per-position results (`data.results`). -/
inductive BatchResponse where
  | transportError (msg : String)
  | dataError (msg : String)
  | ok (results : List EvalResult)

/-- The batch loop of `evaluateGame` (game-evaluator.ts, lines 77–92): each
batch response is processed in order; a transport error throws
`Engine evaluation failed: <msg>`, a `data.error` payload throws `<msg>`,
and a successful batch appends its results to `allResults`. -/
def collectBatches : List BatchResponse → Except String (List EvalResult)
  | [] => .ok []
  | .transportError msg :: _ =>
      .error ("Engine evaluation failed: " ++ msg)
  | .dataError msg :: _ => .error msg
  | .ok results :: rest => (collectBatches rest).map (results ++ ·)

/-- `evaluateGame` restricted to its evaluation core (game-evaluator.ts,
lines 77–137): collect the batched evaluator responses, then run the
move-production phase. PGN parsing and the accuracy/summary phases are
modelled separately (`calcGameAccuracy`, `mkSummary`). -/
def evaluateGameMoves (historyLen : ℕ) (batches : List BatchResponse) :
    Except String (List EvaluatedMove) :=
  (collectBatches batches).bind (evaluateMoves historyLen)

/-- JavaScript `Math.round` on a real argument: `⌊x + 1/2⌋`. Used for the
final accuracy value (game-evaluator.ts, line 185). -/
noncomputable def jsRound (x : ℝ) : ℤ := ⌊x + 1 / 2⌋

/-- `moveAccuracy` (game-evaluator.ts, lines 147–164): per-move accuracy from
the centipawn scores before and after the move, converted to the moving
player's perspective, through a stepped-then-exponential decay curve clamped
to `[0, 100]`. -/
noncomputable def moveAccuracy (cpBefore cpAfter : ℝ) (isWhite : Bool) : ℝ :=
  let playerBefore := if isWhite then cpBefore else -cpBefore
  let playerAfter := if isWhite then cpAfter else -cpAfter
  let cpLoss := playerBefore - playerAfter
  if cpLoss ≤ 5 then 100
  else if cpLoss ≤ 10 then 96
  else if cpLoss ≤ 20 then 88
  else max 0 (min 100 (113 * Real.exp (-0.0165 * cpLoss) - 13))

/-- The `epsilon` constant of `calcGameAccuracy` (game-evaluator.ts,
line 181). -/
noncomputable def epsilon : ℝ := 0.5

/-- The `harmonicSum` accumulator of `calcGameAccuracy` (game-evaluator.ts,
line 182): `accs.reduce((sum, a) => sum + 1 / (a + epsilon), 0)`. -/
noncomputable def harmonicSum (accs : List ℝ) : ℝ :=
  accs.foldl (fun sum a => sum + 1 / (a + epsilon)) 0

/-- The `harmonicMean` value of `calcGameAccuracy` (game-evaluator.ts,
line 183): `accs.length / harmonicSum - epsilon`. -/
noncomputable def harmonicMean (accs : List ℝ) : ℝ :=
  (accs.length : ℝ) / harmonicSum accs - epsilon

/-- The tail of `calcGameAccuracy` (game-evaluator.ts, lines 178–185): an
empty per-move accuracy list yields 100, otherwise the harmonic-mean value
clamped to `[0, 100]` and rounded. -/
noncomputable def calcGameAccuracyFrom (accs : List ℝ) : ℤ :=
  if accs.length = 0 then 100
  else jsRound (max 0 (min 100 (harmonicMean accs)))

/-- The per-move accuracy collection loop of `calcGameAccuracy`
(game-evaluator.ts, lines 168–176): walk `evaluatedMoves` with index `i`,
keeping only the moves of `color`, and score each against the adjacent
entries of `allScores`. In the pipeline `allScores` always has one more
entry than the move list, so the `getD` defaults are never taken. -/
noncomputable def accsLoop (moves : List EvaluatedMove) (allScores : List ℤ)
    (color : Bool) (i : ℕ) : List ℝ :=
  match moves with
  | [] => []
  | m :: rest =>
      if m.color = color then
        moveAccuracy ((allScores.getD i 0 : ℤ) : ℝ)
            ((allScores.getD (i + 1) 0 : ℤ) : ℝ) color
          :: accsLoop rest allScores color (i + 1)
      else accsLoop rest allScores color (i + 1)

/-- `calcGameAccuracy` (game-evaluator.ts, lines 166–186). -/
noncomputable def calcGameAccuracy (moves : List EvaluatedMove)
    (allScores : List ℤ) (color : Bool) : ℤ :=
  calcGameAccuracyFrom (accsLoop moves allScores color 0)

/-- The `allScores` array (game-evaluator.ts, lines 142–145): the starting
position's centipawn score followed by each evaluated move's score. -/
def allScoresOf (startEvalScore : ℚ) (moves : List EvaluatedMove) : List ℤ :=
  qRound (startEvalScore * 100) :: moves.map (fun m => m.score)

/-- The `blunders` list of the summary phase (game-evaluator.ts, line 194). -/
def blundersOf (moves : List EvaluatedMove) : List EvaluatedMove :=
  moves.filter (fun m => m.classification.type == MoveClassType.blunder)

/-- The `mistakes` list of the summary phase (game-evaluator.ts, line 195). -/
def mistakesOf (moves : List EvaluatedMove) : List EvaluatedMove :=
  moves.filter (fun m => m.classification.type == MoveClassType.mistake)

/-- The `inaccuracies` list of the summary phase (game-evaluator.ts,
line 196). -/
def inaccuraciesOf (moves : List EvaluatedMove) : List EvaluatedMove :=
  moves.filter (fun m => m.classification.type == MoveClassType.inaccuracy)

/-- The summary digest built by `evaluateGame` (game-evaluator.ts, lines
193–221), modelled structurally rather than as one joined string: the fixed
header lines carry the accuracies and the per-class counts, and
`itemizedErrors` has one element per error entry itemized in the
`Critical blunders:` and `Mistakes:` lines. -/
structure SummaryDigest where
  whiteAccuracy : ℤ
  blackAccuracy : ℤ
  blunderCount : ℕ
  mistakeCount : ℕ
  inaccuracyCount : ℕ
  itemizedErrors : List EvaluatedMove

/-- The summary construction (game-evaluator.ts, lines 193–221): the
`Critical blunders:` line maps over *all* blunders and the `Mistakes:` line
over *all* mistakes, so every one of them is itemized. -/
def mkSummary (accuracyWhite accuracyBlack : ℤ) (moves : List EvaluatedMove) :
    SummaryDigest :=
  { whiteAccuracy := accuracyWhite
    blackAccuracy := accuracyBlack
    blunderCount := (blundersOf moves).length
    mistakeCount := (mistakesOf moves).length
    inaccuracyCount := (inaccuraciesOf moves).length
    itemizedErrors := blundersOf moves ++ mistakesOf moves }

/-- A game of six plies whose fifth evaluator result (the position after ply
4) carries a failure marker; every other position is scored. -/
def bridgeResults : List EvalResult :=
  [some (50, 0), some (50, 0), some (50, 0), some (50, 0), some (40, 0),
   none, some (90, 0)]

/-- The move list `evaluateGame` produces on `bridgeResults`: ply 4 is
skipped, ply 5 is classified against the win chance 40 of ply 3's
after-position. -/
def bridgeMoves : List EvaluatedMove :=
  [mkEvaluatedMove 0 50 50 0, mkEvaluatedMove 1 50 50 0,
   mkEvaluatedMove 2 50 50 0, mkEvaluatedMove 3 50 40 0,
   mkEvaluatedMove 5 40 90 0]

/-- A three-position result list whose second entry (the position after
ply 0) failed to evaluate. -/
def skipResults : List EvalResult := [some (50, 0), none, some (60, 0)]

/-- The per-position results of a first, fully scored batch. -/
def scoredBatch : List EvalResult := [some (50, 0), some (30, 0)]

/-- A White ply whose win chance collapsed from 100 to 0: classified as a
blunder by the pipeline. -/
def blunderMove : EvaluatedMove := mkEvaluatedMove 0 100 0 0


end Tactically

namespace Tactically


/-- C1: the classification of a move follows the threshold table on
`loss = winBefore - winAfter`: `loss ≥ 20` is a blunder, `10 ≤ loss < 20` a
mistake, `5 ≤ loss < 10` an inaccuracy, `loss ≤ -5` brilliant,
`-5 < loss ≤ -1` excellent, and otherwise (`-1 < loss < 5`) good; in
particular a good classification implies `-1 < loss ≤ 5`. -/
theorem classifyMove_threshold_table (winBefore winAfter : ℚ) :
    (classifyMove winBefore winAfter).winProbLoss = winBefore - winAfter ∧
    ((classifyMove winBefore winAfter).type = MoveClassType.blunder ↔
      20 ≤ winBefore - winAfter) ∧
    ((classifyMove winBefore winAfter).type = MoveClassType.mistake ↔
      10 ≤ winBefore - winAfter ∧ winBefore - winAfter < 20) ∧
    ((classifyMove winBefore winAfter).type = MoveClassType.inaccuracy ↔
      5 ≤ winBefore - winAfter ∧ winBefore - winAfter < 10) ∧
    ((classifyMove winBefore winAfter).type = MoveClassType.brilliant ↔
      winBefore - winAfter ≤ -5) ∧
    ((classifyMove winBefore winAfter).type = MoveClassType.excellent ↔
      -5 < winBefore - winAfter ∧ winBefore - winAfter ≤ -1) ∧
    ((classifyMove winBefore winAfter).type = MoveClassType.good ↔
      -1 < winBefore - winAfter ∧ winBefore - winAfter < 5) := by
  simp only [classifyMove]
  split_ifs with h1 h2 h3 h4 h5 <;>
    refine ⟨rfl, ?_, ?_, ?_, ?_, ?_, ?_⟩ <;>
    constructor <;>
    intro h <;>
    first
      | rfl
      | (exact ⟨by linarith, by linarith⟩)
      | linarith
      | (simp at h)

/-- Every move produced by the loop of `evaluateGame` comes from a successful
entry of `results` and is classified against the win chance of the last
successful entry before it (`prevWinChance` at that iteration). -/
lemma classifyLoop_mem_spec (results : List EvalResult) :
    ∀ (prev : ℚ) (i₀ : ℕ) (m : EvaluatedMove), m ∈ classifyLoop prev results i₀ →
      ∃ j w e, m.index = i₀ + j ∧ results.get? j = some (some (w, e)) ∧
        m = mkEvaluatedMove (i₀ + j) (lastSuccess prev (results.take j)) w e := by
  induction results with
  | nil => intro prev i₀ m hm; simp [classifyLoop] at hm
  | cons head rest ih =>
    intro prev i₀ m hm
    cases head with
    | none =>
      simp only [classifyLoop] at hm
      obtain ⟨j, w, e, hidx, hget, hmk⟩ := ih prev (i₀ + 1) m hm
      refine ⟨j + 1, w, e, by omega, by simpa using hget, ?_⟩
      have harith : i₀ + (j + 1) = i₀ + 1 + j := by omega
      rw [harith]
      simpa [List.take, lastSuccess] using hmk
    | some p =>
      obtain ⟨w0, e0⟩ := p
      simp only [classifyLoop, List.mem_cons] at hm
      rcases hm with hm | hm
      · exact ⟨0, w0, e0, by simpa using hm.symm ▸ rfl, rfl, by
          simpa [List.take, lastSuccess] using hm⟩
      · obtain ⟨j, w, e, hidx, hget, hmk⟩ := ih w0 (i₀ + 1) m hm
        refine ⟨j + 1, w, e, by omega, by simpa using hget, ?_⟩
        have harith : i₀ + (j + 1) = i₀ + 1 + j := by omega
        rw [harith]
        simpa [List.take, lastSuccess] using hmk

lemma succ_mod_two_beq (i : ℕ) : ((i + 1) % 2 == 0) = !(i % 2 == 0) := by
  have h2 : (i + 1) % 2 = (i % 2 + 1) % 2 := by omega
  rcases Nat.mod_two_eq_zero_or_one i with h | h <;> simp [h2, h]

/-- C7: perspective symmetry. Pointwise: classifying a White ply on the
White-perspective win chances `(winBefore, winAfter)` gives exactly the
classification of a Black ply on `(100 - winBefore, 100 - winAfter)`.
Sequence form: mirroring a game by flipping every evaluation
(`winChance ↦ 100 - winChance`, `eval ↦ -eval`) and shifting the side
labels produces the same per-move classification sequence with sides
swapped. -/
theorem classify_perspective_symmetry :
    (∀ winBefore winAfter : ℚ,
        classifyMove (toMoverPerspective true winBefore)
            (toMoverPerspective true winAfter) =
          classifyMove (toMoverPerspective false (100 - winBefore))
            (toMoverPerspective false (100 - winAfter))) ∧
    (∀ (results : List EvalResult) (prev : ℚ) (i : ℕ),
        (classifyLoop (100 - prev)
              (results.map (Option.map fun p => (100 - p.1, -p.2)))
              (i + 1)).map
            (fun m => (m.color, m.classification)) =
          (classifyLoop prev results i).map
            (fun m => (!m.color, m.classification))) := by
  constructor
  · intro winBefore winAfter
    simp only [toMoverPerspective, if_true, if_false, Bool.false_eq_true,
      reduceIte]
    congr 1 <;> ring
  · intro results
    induction results with
    | nil => intro prev i; simp [classifyLoop]
    | cons head rest ih =>
      intro prev i
      cases head with
      | none =>
        simpa only [List.map_cons, Option.map_none', classifyLoop]
          using ih prev (i + 1)
      | some p =>
        obtain ⟨w, e⟩ := p
        simp only [List.map_cons, Option.map_some', classifyLoop, List.map]
        refine congrArg₂ List.cons ?_ (ih w (i + 1))
        simp only [mkEvaluatedMove, succ_mod_two_beq, Prod.mk.injEq]
        refine ⟨trivial, ?_⟩
        cases hc : (i % 2 == 0) <;>
          simp only [hc, Bool.not_false, Bool.not_true, toMoverPerspective,
            if_true, if_false, Bool.false_eq_true, reduceIte] <;>
          congr 1 <;> ring

/-- C2 (amended): every move produced by `evaluateGame` has a successfully
evaluated after-position, and its classification is computed from that
evaluation and the win chance of the *most recent successfully evaluated*
position at or before its ply — which is the immediately preceding position
when no evaluation failed, but bridges across a failed mid-game position:
the ply after a failure is still classified, against the last success. -/
theorem evaluateMoves_uses_last_success (historyLen : ℕ)
    (allResults : List EvalResult) (moves : List EvaluatedMove)
    (hok : evaluateMoves historyLen allResults = Except.ok moves) :
    ∀ m ∈ moves, ∃ w e,
      allResults.get? (m.index + 1) = some (some (w, e)) ∧
      m.winChance = w ∧
      m.classification =
        classifyMove
          (toMoverPerspective (m.index % 2 == 0)
            (lastSuccess 0 (allResults.take (m.index + 1))))
          (toMoverPerspective (m.index % 2 == 0) w) := by
  intro m hm
  match allResults, hok with
  | some (startWin, e0) :: rest, hok =>
    simp only [evaluateMoves, Except.ok.injEq] at hok
    rw [← hok] at hm
    obtain ⟨j, w, e, hidx, hget, hmk⟩ := classifyLoop_mem_spec _ _ _ _ hm
    have hj : j < (rest.take historyLen).length := by
      rcases List.get?_eq_some.mp hget with ⟨h, _⟩
      exact h
    have hjlen : j < historyLen := lt_of_lt_of_le hj (by
      simpa using (List.length_take historyLen rest ▸ min_le_left _ _))
    have hrest : rest.get? j = some (some (w, e)) := by
      rwa [List.get?_take hjlen] at hget
    have htake : (rest.take historyLen).take j = rest.take j := by
      rw [List.take_take]
      exact congrArg (fun n => rest.take n) (min_eq_left (le_of_lt hjlen))
    rw [htake, Nat.zero_add] at hmk
    rw [Nat.zero_add] at hidx
    subst hmk
    refine ⟨w, e, ?_, rfl, ?_⟩
    · exact hrest
    · rfl

lemma bridgeResults_ok : evaluateMoves 6 bridgeResults = Except.ok bridgeMoves :=
  rfl

/-- C2 counterexample: with the evaluation after ply 4 failed, `evaluateGame`
skips ply 4 but still classifies ply 5 — its win-probability loss of 50 is
computed from the evaluation after ply 3 (win chance 40), bridging across
the failed position, while the claim requires every pair touching the
failed position to be skipped and forbids classifications computed from an
older evaluation. -/
theorem bridged_classification_exists :
    evaluateMoves 6 bridgeResults = Except.ok bridgeMoves ∧
    bridgeMoves.map
        (fun m => (m.index, m.classification.type, m.classification.winProbLoss)) =
      [(0, MoveClassType.good, 0), (1, MoveClassType.good, 0),
       (2, MoveClassType.good, 0), (3, MoveClassType.brilliant, -10),
       (5, MoveClassType.blunder, 50)] := by
  refine ⟨bridgeResults_ok, ?_⟩
  norm_num [bridgeMoves, mkEvaluatedMove, classifyMove, toMoverPerspective]

/-- Witness for `evaluateMoves_uses_last_success` at the concrete input
`bridgeResults`: the ply-5 move it produces. -/
theorem evaluateMoves_uses_last_success_witness :
    evaluateMoves 6 bridgeResults = Except.ok bridgeMoves ∧
    mkEvaluatedMove 5 40 90 0 ∈ bridgeMoves ∧
    (∃ w e,
      bridgeResults.get? ((mkEvaluatedMove 5 40 90 0).index + 1) = some (some (w, e)) ∧
      (mkEvaluatedMove 5 40 90 0).winChance = w ∧
      (mkEvaluatedMove 5 40 90 0).classification =
        classifyMove
          (toMoverPerspective ((mkEvaluatedMove 5 40 90 0).index % 2 == 0)
            (lastSuccess 0 (bridgeResults.take ((mkEvaluatedMove 5 40 90 0).index + 1))))
          (toMoverPerspective ((mkEvaluatedMove 5 40 90 0).index % 2 == 0) w)) :=
  ⟨bridgeResults_ok, by simp [bridgeMoves],
    evaluateMoves_uses_last_success 6 bridgeResults bridgeMoves bridgeResults_ok
      (mkEvaluatedMove 5 40 90 0) (by simp [bridgeMoves])⟩

/-- C4: the move-production phase of `evaluateGame` throws precisely when the
very first (starting-position) evaluation is missing or failed; a failure
marker on any non-initial position raises nothing, and no move is produced
for the ply whose resulting position failed to evaluate — a missing
evaluation is skipped, never treated as a score. -/
theorem evaluateMoves_error_iff_start_failed (historyLen : ℕ)
    (allResults : List EvalResult) :
    ((∃ msg, evaluateMoves historyLen allResults = Except.error msg) ↔
      (allResults.head? = none ∨ allResults.head? = some none)) ∧
    (∀ (moves : List EvaluatedMove) (j : ℕ),
      evaluateMoves historyLen allResults = Except.ok moves →
      allResults.get? (j + 1) = some none →
      ∀ m ∈ moves, m.index ≠ j) := by
  constructor
  · match allResults with
    | [] => simp [evaluateMoves]
    | none :: rest => simp [evaluateMoves]
    | some (startWin, e0) :: rest => simp [evaluateMoves]
  · intro moves j hok hfail m hm hidx
    match allResults, hok, hfail with
    | some (startWin, e0) :: rest, hok, hfail =>
      simp only [evaluateMoves, Except.ok.injEq] at hok
      rw [← hok] at hm
      obtain ⟨j', w, e, hidx', hget, _⟩ := classifyLoop_mem_spec _ _ _ _ hm
      rw [Nat.zero_add] at hidx'
      have hj' : j' < (rest.take historyLen).length := by
        rcases List.get?_eq_some.mp hget with ⟨h, _⟩
        exact h
      have hjlen : j' < historyLen := lt_of_lt_of_le hj' (by
        simpa using (List.length_take historyLen rest ▸ min_le_left _ _))
      have hrest : rest.get? j' = some (some (w, e)) := by
        rwa [List.get?_take hjlen] at hget
      have hrj : rest.get? j = some none := by simpa using hfail
      have hjj : j' = j := by omega
      rw [hjj, hrj] at hrest
      simp at hrest

/-- Witness for `evaluateMoves_error_iff_start_failed` at `skipResults`:
the run succeeds and produces no move for ply 0. -/
theorem evaluateMoves_error_iff_start_failed_witness :
    ((∃ msg, evaluateMoves 2 skipResults = Except.error msg) ↔
      (skipResults.head? = none ∨ skipResults.head? = some none)) ∧
    (∀ m ∈ [mkEvaluatedMove 1 50 60 0], m.index ≠ 0) :=
  ⟨(evaluateMoves_error_iff_start_failed 2 skipResults).1,
   (evaluateMoves_error_iff_start_failed 2 skipResults).2
     [mkEvaluatedMove 1 50 60 0] 0 rfl rfl⟩

/-- A transport failure anywhere in the batch sequence propagates to the
whole of `collectBatches`: the results of every earlier, fully scored batch
are dropped and only the error remains. -/
lemma collectBatches_transport_error :
    ∀ (batches : List BatchResponse) (k : ℕ) (msg : String),
      batches.get? k = some (.transportError msg) →
      (∀ j, j < k → ∃ rs, batches.get? j = some (.ok rs)) →
      collectBatches batches = .error ("Engine evaluation failed: " ++ msg) := by
  intro batches
  induction batches with
  | nil => intro k msg hk _; simp at hk
  | cons b rest ih =>
    intro k msg hk hprev
    cases k with
    | zero =>
      simp only [List.get?_cons_zero, Option.some.injEq] at hk
      subst hk
      rfl
    | succ kp =>
      obtain ⟨rs, hb⟩ := hprev 0 (Nat.succ_pos _)
      simp only [List.get?_cons_zero, Option.some.injEq] at hb
      subst hb
      have htail := ih kp msg (by simpa using hk)
        (fun j hj => by simpa using hprev (j + 1) (Nat.succ_lt_succ hj))
      simp [collectBatches, htail, Except.map]

/-- C3 (amended): a hard transport failure in any batch — even when every
earlier batch was fully scored — makes `evaluateGame` throw
`Engine evaluation failed: <msg>`: the whole evaluation aborts, no partial
Game Evaluation is returned, and the positions already scored in earlier
batches are lost to the caller. -/
theorem transport_failure_aborts_everything (batches : List BatchResponse)
    (k : ℕ) (msg : String)
    (hk : batches.get? k = some (.transportError msg))
    (hprev : ∀ j, j < k → ∃ rs, batches.get? j = some (.ok rs))
    (historyLen : ℕ) :
    evaluateGameMoves historyLen batches =
      Except.error ("Engine evaluation failed: " ++ msg) := by
  have h := collectBatches_transport_error batches k msg hk hprev
  simp [evaluateGameMoves, h, Except.bind]

/-- C3 counterexample: the first batch is fully scored (starting position
and ply 0), yet a transport failure in the second batch yields a bare error:
the caller receives no moves at all, so the already-scored positions are not
preserved and no partial Game Evaluation is possible. -/
theorem transport_failure_discards_scored :
    evaluateGameMoves 1
        [BatchResponse.ok scoredBatch, BatchResponse.transportError "boom"] =
      Except.error "Engine evaluation failed: boom" := rfl

/-- Witness for `transport_failure_aborts_everything` at a concrete batch
sequence with one scored batch before the failing one. -/
theorem transport_failure_aborts_everything_witness :
    ([BatchResponse.ok scoredBatch, BatchResponse.transportError "boom"].get? 1 =
      some (BatchResponse.transportError "boom")) ∧
    evaluateGameMoves 1
        [BatchResponse.ok scoredBatch, BatchResponse.transportError "boom"] =
      Except.error ("Engine evaluation failed: " ++ "boom") :=
  ⟨rfl, transport_failure_aborts_everything
    [BatchResponse.ok scoredBatch, BatchResponse.transportError "boom"]
    1 "boom" rfl (fun j hj => ⟨scoredBatch, by interval_cases j; rfl⟩) 1⟩

/-- Rounding a real in `[0, 100]` with JavaScript `Math.round` stays in
`[0, 100]`. -/
lemma jsRound_mem_range {x : ℝ} (h0 : 0 ≤ x) (h100 : x ≤ 100) :
    0 ≤ jsRound x ∧ jsRound x ≤ 100 := by
  unfold jsRound
  constructor
  · exact Int.floor_nonneg.mpr (by linarith)
  · have hlt : ⌊x + 1 / 2⌋ < 101 := by
      rw [Int.floor_lt]
      push_cast
      linarith
    omega

/-- C5: per-move and per-game accuracy values always lie in `[0, 100]`,
for every input — including malformed score sequences with arbitrarily
large centipawn swings. -/
theorem accuracy_values_in_range :
    (∀ (cpBefore cpAfter : ℝ) (isWhite : Bool),
        0 ≤ moveAccuracy cpBefore cpAfter isWhite ∧
        moveAccuracy cpBefore cpAfter isWhite ≤ 100) ∧
    (∀ (moves : List EvaluatedMove) (allScores : List ℤ) (color : Bool),
        0 ≤ calcGameAccuracy moves allScores color ∧
        calcGameAccuracy moves allScores color ≤ 100) := by
  constructor
  · intro cpBefore cpAfter isWhite
    simp only [moveAccuracy]
    split_ifs <;> norm_num
  · intro moves allScores color
    unfold calcGameAccuracy calcGameAccuracyFrom
    split_ifs
    · norm_num
    · exact jsRound_mem_range (le_max_left _ _)
        (max_le (by norm_num) (min_le_left _ _))

/-- The accuracy collection loop yields nothing when no move belongs to the
requested color. -/
lemma accsLoop_nil_of_no_color (allScores : List ℤ) (color : Bool) :
    ∀ (moves : List EvaluatedMove) (i : ℕ),
      (∀ m ∈ moves, m.color ≠ color) → accsLoop moves allScores color i = [] := by
  intro moves
  induction moves with
  | nil => intro i _; rfl
  | cons m rest ih =>
    intro i h
    have hm : ¬(m.color = color) := h m (List.mem_cons_self _ _)
    simp only [accsLoop, if_neg hm]
    exact ih (i + 1) (fun x hx => h x (List.mem_cons_of_mem _ hx))

/-- C6: a color with no classified moves attributed to it gets accuracy
exactly 100 and an empty per-move accuracy list; the computation is total,
so no exception can arise for the empty side. -/
theorem zero_moves_accuracy_100 (moves : List EvaluatedMove)
    (allScores : List ℤ) (color : Bool)
    (h : ∀ m ∈ moves, m.color ≠ color) :
    calcGameAccuracy moves allScores color = 100 ∧
    accsLoop moves allScores color 0 = [] := by
  have hnil := accsLoop_nil_of_no_color allScores color moves 0 h
  exact ⟨by simp [calcGameAccuracy, calcGameAccuracyFrom, hnil], hnil⟩

/-- Witness for `zero_moves_accuracy_100`: a game whose only move is
White's, queried for Black's accuracy. -/
theorem zero_moves_accuracy_100_witness :
    (∀ m ∈ [mkEvaluatedMove 0 50 50 0], m.color ≠ false) ∧
    (calcGameAccuracy [mkEvaluatedMove 0 50 50 0] [0, 0] false = 100 ∧
     accsLoop [mkEvaluatedMove 0 50 50 0] [0, 0] false 0 = []) :=
  ⟨fun m hm => by
      rw [List.mem_singleton] at hm
      subst hm
      decide,
   zero_moves_accuracy_100 [mkEvaluatedMove 0 50 50 0] [0, 0] false
     (fun m hm => by
       rw [List.mem_singleton] at hm
       subst hm
       decide)⟩

/-- For positive reals, `x/y + y/x ≥ 2`, strictly when `x ≠ y`. -/
lemma two_le_div_add_div {x y : ℝ} (hx : 0 < x) (hy : 0 < y) :
    2 ≤ x / y + y / x ∧ (x ≠ y → 2 < x / y + y / x) := by
  constructor
  · rw [div_add_div _ _ (ne_of_gt hy) (ne_of_gt hx), le_div_iff (by positivity)]
    nlinarith [sq_nonneg (x - y)]
  · intro hne
    have h0 : x - y ≠ 0 := sub_ne_zero.mpr hne
    have hsq : 0 < (x - y) ^ 2 :=
      lt_of_le_of_ne (sq_nonneg _) (Ne.symm (pow_ne_zero 2 h0))
    rw [div_add_div _ _ (ne_of_gt hy) (ne_of_gt hx), lt_div_iff (by positivity)]
    nlinarith

/-- Cross term of the AM–HM expansion: `a·Σ(1/x) + (Σx)/a ≥ 2·n` over a list
of positive reals, strictly as soon as some element differs from `a`. -/
lemma cross_term_bound (a : ℝ) (ha : 0 < a) :
    ∀ (l : List ℝ), (∀ x ∈ l, 0 < x) →
      2 * (l.length : ℝ) ≤ a * (l.map (fun x => 1 / x)).sum + l.sum / a ∧
      ((∃ x ∈ l, x ≠ a) →
        2 * (l.length : ℝ) < a * (l.map (fun x => 1 / x)).sum + l.sum / a) := by
  intro l
  induction l with
  | nil =>
    intro _
    refine ⟨by simp, ?_⟩
    rintro ⟨x, hx, -⟩
    simp at hx
  | cons x rest ih =>
    intro hpos
    have hx : 0 < x := hpos x (List.mem_cons_self _ _)
    have hrest := ih (fun y hy => hpos y (List.mem_cons_of_mem _ hy))
    have hpair := two_le_div_add_div ha hx
    have expand : a * ((1 / x + (rest.map (fun y => 1 / y)).sum)) +
        (x + rest.sum) / a =
        (a / x + x / a) +
          (a * (rest.map (fun y => 1 / y)).sum + rest.sum / a) := by
      field_simp
      ring
    constructor
    · simp only [List.map_cons, List.sum_cons, List.length_cons]
      push_cast
      rw [expand]
      have h1 := hpair.1
      have h2 := hrest.1
      linarith
    · rintro ⟨y, hy, hyne⟩
      simp only [List.map_cons, List.sum_cons, List.length_cons]
      push_cast
      rw [expand]
      rcases List.mem_cons.mp hy with rfl | hy
      · have h1 := hpair.2 (Ne.symm hyne)
        have h2 := hrest.1
        linarith
      · have h1 := hpair.1
        have h2 := hrest.2 ⟨y, hy, hyne⟩
        linarith

/-- Cauchy–Schwarz-style inequality behind AM–HM: for a list of positive
reals, `n² ≤ (Σx)·(Σ 1/x)`, strictly when two elements differ. -/
lemma sq_length_le_sum_mul_sum_inv :
    ∀ (l : List ℝ), (∀ x ∈ l, 0 < x) →
      ((l.length : ℝ)) ^ 2 ≤ l.sum * (l.map (fun x => 1 / x)).sum ∧
      ((∃ x ∈ l, ∃ y ∈ l, x ≠ y) →
        ((l.length : ℝ)) ^ 2 < l.sum * (l.map (fun x => 1 / x)).sum) := by
  intro l
  induction l with
  | nil =>
    intro _
    refine ⟨by simp, ?_⟩
    rintro ⟨x, hx, -⟩
    simp at hx
  | cons a rest ih =>
    intro hpos
    have ha : 0 < a := hpos a (List.mem_cons_self _ _)
    have hrestpos : ∀ y ∈ rest, 0 < y :=
      fun y hy => hpos y (List.mem_cons_of_mem _ hy)
    have hih := ih hrestpos
    have hcross := cross_term_bound a ha rest hrestpos
    have expand : (a + rest.sum) * (1 / a + (rest.map (fun y => 1 / y)).sum) =
        1 + (a * (rest.map (fun y => 1 / y)).sum + rest.sum / a) +
          rest.sum * (rest.map (fun y => 1 / y)).sum := by
      field_simp
      ring
    constructor
    · simp only [List.map_cons, List.sum_cons, List.length_cons]
      push_cast
      rw [expand]
      nlinarith [hih.1, hcross.1]
    · rintro ⟨x, hx, y, hy, hne⟩
      simp only [List.map_cons, List.sum_cons, List.length_cons]
      push_cast
      rw [expand]
      rcases List.mem_cons.mp hx with hxa | hx
      · rcases List.mem_cons.mp hy with hya | hy
        · exact absurd (hxa.trans hya.symm) hne
        · have hya : y ≠ a := fun h => hne (hxa.trans h.symm)
          have h1 := hcross.2 ⟨y, hy, hya⟩
          nlinarith [hih.1]
      · rcases List.mem_cons.mp hy with hya | hy
        · have hxna : x ≠ a := fun h => hne (h.trans hya.symm)
          have h1 := hcross.2 ⟨x, hx, hxna⟩
          nlinarith [hih.1]
        · have h1 := hih.2 ⟨x, hx, y, hy, hne⟩
          nlinarith [hcross.1]

/-- The `reduce` of `calcGameAccuracy` is the sum of the mapped inverses. -/
lemma harmonicSum_eq_sum_map :
    ∀ (l : List ℝ), harmonicSum l = (l.map (fun a => 1 / (a + epsilon))).sum := by
  have haux : ∀ (l : List ℝ) (c : ℝ),
      l.foldl (fun sum a => sum + 1 / (a + epsilon)) c =
        c + (l.map (fun a => 1 / (a + epsilon))).sum := by
    intro l
    induction l with
    | nil => intro c; simp
    | cons a rest ih =>
      intro c
      simp only [List.foldl_cons, List.map_cons, List.sum_cons, ih]
      ring
  intro l
  unfold harmonicSum
  simpa using haux l 0

lemma sum_map_add_epsilon :
    ∀ (l : List ℝ), (l.map (fun a => a + epsilon)).sum =
      l.sum + (l.length : ℝ) * epsilon := by
  intro l
  induction l with
  | nil => simp
  | cons a rest ih =>
    simp only [List.map_cons, List.sum_cons, List.length_cons, ih]
    push_cast
    ring

/-- C8: the aggregated per-color accuracy before final rounding and clamping
(the `harmonicMean` value) never exceeds the arithmetic mean of the per-move
scores, and is strictly below it whenever the scores are not all equal: the
harmonic-mean aggregation penalizes low outliers more than an arithmetic
average would. -/
theorem harmonicMean_le_arith_mean (accs : List ℝ)
    (hne : accs ≠ []) (hnonneg : ∀ a ∈ accs, 0 ≤ a) :
    harmonicMean accs ≤ accs.sum / (accs.length : ℝ) ∧
    ((∃ x ∈ accs, ∃ y ∈ accs, x ≠ y) →
      harmonicMean accs < accs.sum / (accs.length : ℝ)) := by
  have heps : (0 : ℝ) < epsilon := by norm_num [epsilon]
  set b := accs.map (fun a => a + epsilon) with hb
  have hbpos : ∀ x ∈ b, 0 < x := by
    intro x hx
    rw [hb, List.mem_map] at hx
    obtain ⟨a, ha, rfl⟩ := hx
    have := hnonneg a ha
    linarith
  have hblen : b.length = accs.length := by rw [hb, List.length_map]
  have hbsum : b.sum = accs.sum + (accs.length : ℝ) * epsilon :=
    sum_map_add_epsilon accs
  have hTmap : harmonicSum accs = (b.map (fun x => 1 / x)).sum := by
    rw [harmonicSum_eq_sum_map, hb, List.map_map]
    rfl
  have hkey := sq_length_le_sum_mul_sum_inv b hbpos
  have hn : (0 : ℝ) < (accs.length : ℝ) := by
    have := List.length_pos.mpr hne
    exact_mod_cast this
  have hT : (0 : ℝ) < harmonicSum accs := by
    rw [hTmap]
    apply List.sum_pos
    · intro x hx
      rw [List.mem_map] at hx
      obtain ⟨z, hz, rfl⟩ := hx
      have := hbpos z hz
      positivity
    · intro hmapnil
      rw [List.map_eq_nil] at hmapnil
      rw [hb, List.map_eq_nil] at hmapnil
      exact hne hmapnil
  constructor
  · have h1 : ((accs.length : ℝ)) ^ 2 ≤ b.sum * harmonicSum accs := by
      rw [hTmap]
      have := hkey.1
      rwa [hblen] at this
    have hdiv : (accs.length : ℝ) / harmonicSum accs ≤ b.sum / (accs.length : ℝ) := by
      rw [div_le_div_iff hT hn]
      nlinarith
    rw [harmonicMean]
    rw [hbsum] at hdiv
    have hexp : (accs.sum + (accs.length : ℝ) * epsilon) / (accs.length : ℝ) =
        accs.sum / (accs.length : ℝ) + epsilon := by
      field_simp
      ring
    rw [hexp] at hdiv
    linarith
  · rintro ⟨x, hx, y, hy, hne2⟩
    have hbne : ∃ u ∈ b, ∃ v ∈ b, u ≠ v := by
      refine ⟨x + epsilon, ?_, y + epsilon, ?_, ?_⟩
      · rw [hb, List.mem_map]; exact ⟨x, hx, rfl⟩
      · rw [hb, List.mem_map]; exact ⟨y, hy, rfl⟩
      · intro hcon
        exact hne2 (by linarith [add_right_cancel hcon])
    have h1 : ((accs.length : ℝ)) ^ 2 < b.sum * harmonicSum accs := by
      rw [hTmap]
      have := hkey.2 hbne
      rwa [hblen] at this
    have hdiv : (accs.length : ℝ) / harmonicSum accs < b.sum / (accs.length : ℝ) := by
      rw [div_lt_div_iff hT hn]
      nlinarith
    rw [harmonicMean]
    rw [hbsum] at hdiv
    have hexp : (accs.sum + (accs.length : ℝ) * epsilon) / (accs.length : ℝ) =
        accs.sum / (accs.length : ℝ) + epsilon := by
      field_simp
      ring
    rw [hexp] at hdiv
    linarith

/-- Witness for `harmonicMean_le_arith_mean` on the unequal score list
`[0, 100]`. -/
theorem harmonicMean_le_arith_mean_witness :
    ([(0 : ℝ), 100] ≠ []) ∧ (∀ a ∈ [(0 : ℝ), 100], 0 ≤ a) ∧
    (∃ x ∈ [(0 : ℝ), 100], ∃ y ∈ [(0 : ℝ), 100], x ≠ y) ∧
    harmonicMean [(0 : ℝ), 100] <
      ([(0 : ℝ), 100].sum / (([(0 : ℝ), 100].length : ℝ))) := by
  have h1 : ([(0 : ℝ), 100] ≠ []) := by simp
  have h2 : ∀ a ∈ [(0 : ℝ), 100], 0 ≤ a := by norm_num
  have h3 : ∃ x ∈ [(0 : ℝ), 100], ∃ y ∈ [(0 : ℝ), 100], x ≠ y :=
    ⟨0, by norm_num, 100, by norm_num, by norm_num⟩
  exact ⟨h1, h2, h3, (harmonicMean_le_arith_mean [0, 100] h1 h2).2 h3⟩

lemma blunderMove_is_blunder :
    blunderMove.classification.type = MoveClassType.blunder := by
  norm_num [blunderMove, mkEvaluatedMove, classifyMove, toMoverPerspective]

lemma blundersOf_replicate_length (k : ℕ) :
    (blundersOf (List.replicate k blunderMove)).length = k := by
  induction k with
  | zero => rfl
  | succ n ih =>
    rw [List.replicate_succ]
    simp only [blundersOf] at ih ⊢
    rw [List.filter_cons, if_pos (by simp only [blunderMove_is_blunder]; decide)]
    simp [ih]

lemma mistakesOf_replicate_blunder (k : ℕ) :
    mistakesOf (List.replicate k blunderMove) = [] := by
  induction k with
  | zero => rfl
  | succ n ih =>
    rw [List.replicate_succ]
    simp only [mistakesOf] at ih ⊢
    rw [List.filter_cons, if_neg (by simp only [blunderMove_is_blunder]; decide)]
    exact ih

/-- C9 (amended): the summary digest itemizes every blunder and every
mistake of the classified move list with no cap: for every bound `n` there
is a move list whose digest itemizes more than `n` errors, so the output
length is not bounded. -/
theorem summary_itemized_errors_unbounded :
    ∀ n : ℕ, ∃ moves : List EvaluatedMove,
      n < ((mkSummary 0 0 moves).itemizedErrors).length := by
  intro n
  refine ⟨List.replicate (n + 1) blunderMove, ?_⟩
  have h1 : ((mkSummary 0 0 (List.replicate (n + 1) blunderMove)).itemizedErrors).length =
      (blundersOf (List.replicate (n + 1) blunderMove)).length +
        (mistakesOf (List.replicate (n + 1) blunderMove)).length := by
    simp [mkSummary]
  rw [h1, blundersOf_replicate_length]
  omega

/-- C9 counterexample: a classified move list holding 21 blunders yields a
summary digest that itemizes all 21 of them — more than the claimed cap of
20 — because the `Critical blunders:` line maps over the whole blunder
list. -/
theorem summary_itemizes_all_21_blunders :
    ((mkSummary 0 0 (List.replicate 21 blunderMove)).itemizedErrors).length = 21 ∧
    20 < 21 := by
  constructor
  · have hb := blundersOf_replicate_length 21
    have hm := mistakesOf_replicate_blunder 21
    have h1 : ((mkSummary 0 0 (List.replicate 21 blunderMove)).itemizedErrors).length =
        (blundersOf (List.replicate 21 blunderMove)).length +
          (mistakesOf (List.replicate 21 blunderMove)).length := by
      simp only [mkSummary, List.length_append]
    rw [h1, hb, hm]
    simp
  · omega

/-- C10: the `book` member of the classification type is never produced by
`classifyMove`; every output is one of the six reachable classes. -/
theorem classifyMove_never_book (winBefore winAfter : ℚ) :
    (classifyMove winBefore winAfter).type = MoveClassType.blunder ∨
    (classifyMove winBefore winAfter).type = MoveClassType.mistake ∨
    (classifyMove winBefore winAfter).type = MoveClassType.inaccuracy ∨
    (classifyMove winBefore winAfter).type = MoveClassType.good ∨
    (classifyMove winBefore winAfter).type = MoveClassType.excellent ∨
    (classifyMove winBefore winAfter).type = MoveClassType.brilliant := by
  simp only [classifyMove]
  split_ifs <;> simp

end Tactically
